import Mathlib

/-!
Verification of the ITRANS-to-Devanagari transliteration engine
(`itrans_to_devanagari.py`).  Text is modelled as `List Char`; each Python
dictionary becomes an association list in declaration order, and the
scanning loop of `ITRANSTranslator.translate` becomes a step function
(`step`) driven by a fuel-indexed iterator (`scanFuel`), where the fuel
`s.length` is provably sufficient because every branch of the loop body
advances the cursor by at least one character.
-/

namespace Itrans

/-- Vowel table `VOWELS` (swar), in declaration order. -/
def VOWELS : List (List Char × List Char) := [
  ("a".toList, "अ".toList),
  ("aa".toList, "आ".toList), ("A".toList, "आ".toList),
  ("i".toList, "इ".toList),
  ("ii".toList, "ई".toList), ("I".toList, "ई".toList),
  ("u".toList, "उ".toList),
  ("uu".toList, "ऊ".toList), ("U".toList, "ऊ".toList),
  ("RRi".toList, "ऋ".toList), ("R^i".toList, "ऋ".toList),
  ("RRI".toList, "ॠ".toList), ("R^I".toList, "ॠ".toList),
  ("LLi".toList, "ऌ".toList), ("L^i".toList, "ऌ".toList),
  ("LLI".toList, "ॡ".toList), ("L^I".toList, "ॡ".toList),
  ("e".toList, "ए".toList),
  ("ai".toList, "ऐ".toList), ("E".toList, "ऐ".toList),
  ("o".toList, "ओ".toList),
  ("au".toList, "औ".toList), ("O".toList, "औ".toList),
  ("M".toList, "ं".toList),
  ("H".toList, "ः".toList),
  (".".toList, "।".toList),
  ("..".toList, "॥".toList)]

/-- Consonant table `CONSONANTS` (vyanjan), in declaration order. -/
def CONSONANTS : List (List Char × List Char) := [
  ("k".toList, "क".toList), ("kh".toList, "ख".toList),
  ("g".toList, "ग".toList), ("gh".toList, "घ".toList),
  ("~N".toList, "ङ".toList), ("N^".toList, "ङ".toList),
  ("ch".toList, "च".toList), ("Ch".toList, "छ".toList),
  ("chh".toList, "छ".toList), ("j".toList, "ज".toList),
  ("jh".toList, "झ".toList), ("~n".toList, "ञ".toList),
  ("JN".toList, "ञ".toList), ("j~n".toList, "ज्ञ".toList),
  ("GY".toList, "ज्ञ".toList),
  ("T".toList, "ट".toList), ("Th".toList, "ठ".toList),
  ("D".toList, "ड".toList), ("Dh".toList, "ढ".toList),
  ("N".toList, "ण".toList),
  ("t".toList, "त".toList), ("th".toList, "थ".toList),
  ("d".toList, "द".toList), ("dh".toList, "ध".toList),
  ("n".toList, "न".toList),
  ("p".toList, "प".toList), ("ph".toList, "फ".toList),
  ("b".toList, "ब".toList), ("bh".toList, "भ".toList),
  ("m".toList, "म".toList),
  ("y".toList, "य".toList), ("r".toList, "र".toList),
  ("l".toList, "ल".toList), ("v".toList, "व".toList),
  ("w".toList, "व".toList),
  ("sh".toList, "श".toList), ("Sh".toList, "ष".toList),
  ("S".toList, "ष".toList), ("s".toList, "स".toList),
  ("h".toList, "ह".toList),
  ("x".toList, "क्ष".toList)]

/-- Matra table `MATRAS` (vowel diacritics), in declaration order. -/
def MATRAS : List (List Char × List Char) := [
  ("aa".toList, "ा".toList), ("A".toList, "ा".toList),
  ("i".toList, "ि".toList),
  ("ii".toList, "ी".toList), ("I".toList, "ी".toList),
  ("u".toList, "ु".toList),
  ("uu".toList, "ू".toList), ("U".toList, "ू".toList),
  ("RRi".toList, "ृ".toList), ("R^i".toList, "ृ".toList),
  ("RRI".toList, "ॄ".toList), ("R^I".toList, "ॄ".toList),
  ("e".toList, "े".toList),
  ("ai".toList, "ै".toList), ("E".toList, "ै".toList),
  ("o".toList, "ो".toList),
  ("au".toList, "ौ".toList), ("O".toList, "ौ".toList)]

/-- Special-character table `SPECIAL`, in declaration order. -/
def SPECIAL : List (List Char × List Char) := [
  ("M".toList, "ं".toList),
  ("H".toList, "ः".toList),
  (".".toList, "।".toList),
  ("..".toList, "॥".toList)]

/-- Alias table `special_cases` of `ITRANSTranslator.__init__`, in
declaration order. -/
def special_cases : List (List Char × List Char) := [
  ("shri".toList, "shrii".toList),
  ("bharat".toList, "bhaarat".toList),
  ("sanskrit".toList, "saMskR^it".toList),
  ("hindi".toList, "hiMdii".toList)]

/-- Python's `text.startswith(pat)`: `isPre pat text` decides whether
`pat` is an initial segment of `text`. -/
def isPre : List Char → List Char → Bool
  | [], _ => true
  | _ :: _, [] => false
  | a :: as, b :: bs => if a = b then isPre as bs else false

/-- Python's `pat in text` substring test. -/
def isInf (p : List Char) : List Char → Bool
  | [] => isPre p []
  | c :: rest => isPre p (c :: rest) || isInf p rest

/-- A `for pattern in pats: if text.startswith(pattern): ...; break` loop,
returning the first pattern of `pats` that is a prefix of `s`. -/
def firstMatch : List (List Char) → List Char → Option (List Char)
  | [], _ => none
  | p :: rest, s => if isPre p s then some p else firstMatch rest s

/-- A scanning loop used only for a boolean flag (`next_is_consonant`,
`is_vowel_or_special`): does some pattern of `pats` begin `s`? -/
def anyMatch : List (List Char) → List Char → Bool
  | [], _ => false
  | p :: rest, s => isPre p s || anyMatch rest s

/-- Dictionary lookup `TABLE.get(key)`/`TABLE[key]`, with `[]` for a
missing key. -/
def lookupTab : List (List Char × List Char) → List Char → List Char
  | [], _ => []
  | (k, v) :: rest, p => if k = p then v else lookupTab rest p

/-- Stable insertion of `x` into a length-descending list: `x` is placed
after all already-present entries of length at least `x.length`. -/
def insertDesc (x : List Char) : List (List Char) → List (List Char)
  | [] => [x]
  | y :: ys => if y.length < x.length then x :: y :: ys else y :: insertDesc x ys

/-- Python's stable `sorted(keys, key=len, reverse=True)`:
longest first, ties kept in declaration order. -/
def pySortLenDesc (l : List (List Char)) : List (List Char) :=
  l.foldl (fun acc x => insertDesc x acc) []

/-- `self.vowel_patterns` of `ITRANSTranslator.__init__`. -/
def vowel_patterns : List (List Char) := pySortLenDesc (VOWELS.map Prod.fst)

/-- `self.consonant_patterns` of `ITRANSTranslator.__init__`. -/
def consonant_patterns : List (List Char) := pySortLenDesc (CONSONANTS.map Prod.fst)

/-- `self.matra_patterns` of `ITRANSTranslator.__init__`. -/
def matra_patterns : List (List Char) := pySortLenDesc (MATRAS.map Prod.fst)

/-- The sequence `SPECIAL.keys()` iterated by the scanner's special-pattern
loops: raw declaration order, not length-sorted. -/
def special_scan_patterns : List (List Char) := SPECIAL.map Prod.fst

/-- Python's `text.lower()`, restricted to the per-character ASCII case map
(the engine's tables and aliases are ASCII). -/
def pyLower (s : List Char) : List Char := s.map Char.toLower

/-- Helper for `splitWs`: accumulates the current word (reversed). -/
def splitWsAux : List Char → List Char → List (List Char)
  | [], acc => if acc = [] then [] else [acc.reverse]
  | c :: rest, acc =>
    if c.isWhitespace then
      if acc = [] then splitWsAux rest [] else acc.reverse :: splitWsAux rest []
    else splitWsAux rest (c :: acc)

/-- Python's `text.split()`: split on whitespace runs, dropping empty words. -/
def splitWs (s : List Char) : List (List Char) := splitWsAux s []

/-- Python's `' '.join(words)`. -/
def joinSp : List (List Char) → List Char
  | [] => []
  | [w] => w
  | w :: w' :: rest => w ++ ' ' :: joinSp (w' :: rest)

/-- The body of the alias loop of `translate` (lines 99-110): for the first
alias whose lowercased form occurs in the lowercased input, rebuild the text
word by word, replacing words that equal the alias case-insensitively. -/
def applySpecialCasesAux : List (List Char × List Char) → List Char → List Char
  | [], text => text
  | (a, r) :: rest, text =>
    if isInf a (pyLower text) then
      joinSp ((splitWs text).map (fun w => if pyLower w = a then r else w))
    else applySpecialCasesAux rest text

/-- The special-case rewrite pre-pass of `translate`. -/
def applySpecialCases (text : List Char) : List Char :=
  applySpecialCasesAux special_cases text

/-- One iteration of the scanning `while` loop of `translate` at the current
cursor position: `s` is the not-yet-consumed remainder of the text; the
result is the emitted glyph chunk and the number of characters consumed.
The dead `matra_pattern == 'a'` check of line 142 is kept (no matra key is
`a`, so the implicit-`a` elision actually happens in the vowel fallback). -/
def step (s : List Char) : List Char × Nat :=
  match s with
  | [] => ([], 1)
  | c :: _ =>
    if c = ' ' then ([' '], 1)
    else
      match firstMatch consonant_patterns s with
      | some p =>
        let g := lookupTab CONSONANTS p
        let t := s.drop p.length
        match firstMatch matra_patterns t with
        | some mp =>
          if mp = "a".toList then (g, p.length + 1)
          else (g ++ lookupTab MATRAS mp, p.length + mp.length)
        | none =>
          match firstMatch vowel_patterns t with
          | some vp =>
            if vp = "a".toList then (g, p.length + 1)
            else (g ++ lookupTab VOWELS vp, p.length + vp.length)
          | none =>
            if p = "n".toList ∧ t = [] then (("ं").toList, p.length)
            else
              if t ≠ [] ∧ t.head? ≠ some ' ' then
                if anyMatch consonant_patterns t then
                  if anyMatch vowel_patterns t || anyMatch special_scan_patterns t then
                    (g, p.length)
                  else (g ++ ("्").toList, p.length)
                else (g, p.length)
              else (g, p.length)
      | none =>
        match firstMatch vowel_patterns s with
        | some p => (lookupTab VOWELS p, p.length)
        | none =>
          match firstMatch special_scan_patterns s with
          | some p => (lookupTab SPECIAL p, p.length)
          | none => ([c], 1)

/-- The scanning loop, driven by explicit fuel; each iteration appends the
emitted chunk and drops the consumed characters. -/
def scanFuel : Nat → List Char → List Char
  | 0, _ => []
  | f + 1, s => if s = [] then [] else (step s).1 ++ scanFuel f (s.drop (step s).2)

/-- The scanning loop of `translate` on an already-rewritten text: fuel
`s.length` suffices since every iteration consumes at least one character. -/
def scanText (s : List Char) : List Char := scanFuel s.length s

/-- `ITRANSTranslator.translate`: empty-input check, alias rewrite, scan. -/
def translate (text : List Char) : List Char :=
  if text = [] then [] else scanText (applySpecialCases text)

/-- Number of iterations the scanning loop performs, fuel-bounded. -/
def scanItersFuel : Nat → List Char → Nat
  | 0, _ => 0
  | f + 1, s => if s = [] then 0 else 1 + scanItersFuel f (s.drop (step s).2)

/-- Number of iterations of the scanning loop of `translate`. -/
def scanIters (s : List Char) : Nat := scanItersFuel s.length s

/-- A code point of the Devanagari Unicode block U+0900 to U+097F. -/
abbrev devChar (c : Char) : Prop := 0x900 ≤ c.toNat ∧ c.toNat ≤ 0x97F

/-- No halant character is immediately followed by a space in `l`. -/
def noHalantSpace : List Char → Bool
  | c :: d :: rest => if c = '्' ∧ d = ' ' then false else noHalantSpace (d :: rest)
  | _ => true

/-- The last element of a list, if any. -/
def lastOpt (l : List Char) : Option Char := l.reverse.head?

/-- Position of `y` in `l` (length of `l` when absent). -/
def idxOf : List (List Char) → List Char → Nat
  | [], _ => 0
  | x :: rest, y => if x = y then 0 else idxOf rest y + 1

/-- The list is ordered by non-increasing pattern length. -/
abbrev lenDescending (l : List (List Char)) : Prop :=
  l.Pairwise (fun a b => b.length ≤ a.length)

/-- Entries of equal length appear in `l` in the same relative order as in
`keys` (stable tie-breaking). -/
abbrev stableTies (l keys : List (List Char)) : Prop :=
  ∀ i : Fin l.length, ∀ j : Fin l.length, i.val < j.val →
    (l.get i).length = (l.get j).length → idxOf keys (l.get i) < idxOf keys (l.get j)

/-- No entry of `l` is a strict initial segment of a later entry, i.e. a
strict initial segment is always visited after the longer pattern. -/
abbrev longerFirst (l : List (List Char)) : Prop :=
  l.Pairwise (fun a b => ¬(a ≠ b ∧ isPre a b = true))

/-- A successful `isPre` test on a nonempty pattern exposes the head. -/
lemma isPre_cons {a : Char} {as s : List Char} (h : isPre (a :: as) s = true) :
    ∃ s', s = a :: s' ∧ isPre as s' = true := by
  cases s with
  | nil => simp [isPre] at h
  | cons b bs =>
    simp only [isPre] at h
    split at h
    · next hab => exact ⟨bs, by rw [hab], h⟩
    · exact absurd h (by simp)

/-- An initial segment is no longer than the whole. -/
lemma isPre_length_le {p : List Char} : ∀ {s : List Char}, isPre p s = true →
    p.length ≤ s.length := by
  induction p with
  | nil => intro s _; simp
  | cons a as ih =>
    intro s h
    obtain ⟨s', rfl, h'⟩ := isPre_cons h
    simpa using ih h'

/-- An initial segment of equal length is the whole list. -/
lemma isPre_eq_of_length {p : List Char} : ∀ {s : List Char}, isPre p s = true →
    p.length = s.length → p = s := by
  induction p with
  | nil =>
    intro s _ h
    cases s with
    | nil => rfl
    | cons b bs => simp at h
  | cons a as ih =>
    intro s h hl
    obtain ⟨s', rfl, h'⟩ := isPre_cons h
    simp only [List.length_cons, Nat.add_right_cancel_iff] at hl
    rw [ih h' hl]

/-- A strict initial segment is strictly shorter. -/
lemma isPre_length_lt {p s : List Char} (h : isPre p s = true) (hne : p ≠ s) :
    p.length < s.length := by
  rcases Nat.lt_or_ge p.length s.length with hlt | hge
  · exact hlt
  · exact absurd (isPre_eq_of_length h (Nat.le_antisymm (isPre_length_le h) hge)) hne

/-- What a successful pattern search returns: a member that begins `s`. -/
lemma firstMatch_some : ∀ {pats : List (List Char)} {s p : List Char},
    firstMatch pats s = some p → p ∈ pats ∧ isPre p s = true := by
  intro pats
  induction pats with
  | nil => intro s p h; simp [firstMatch] at h
  | cons q rest ih =>
    intro s p h
    simp only [firstMatch] at h
    split at h
    · next hq => cases h; exact ⟨List.mem_cons_self .., hq⟩
    · obtain ⟨h1, h2⟩ := ih h
      exact ⟨List.mem_cons_of_mem _ h1, h2⟩

/-- A failed pattern search means no pattern begins `s`. -/
lemma firstMatch_none : ∀ {pats : List (List Char)} {s : List Char},
    firstMatch pats s = none → ∀ p ∈ pats, isPre p s = false := by
  intro pats
  induction pats with
  | nil => intro s _ p hp; simp at hp
  | cons q rest ih =>
    intro s h p hp
    simp only [firstMatch] at h
    split at h
    · exact absurd h (by simp)
    · next hq =>
      rcases List.mem_cons.mp hp with rfl | hp'
      · exact Bool.of_not_eq_true hq
      · exact ih h p hp'

/-- If some member begins `s` the search succeeds. -/
lemma firstMatch_isSome : ∀ {pats : List (List Char)} {s p : List Char},
    p ∈ pats → isPre p s = true → ∃ q, firstMatch pats s = some q := by
  intro pats
  induction pats with
  | nil => intro s p hp; simp at hp
  | cons q rest ih =>
    intro s p hp hpre
    simp only [firstMatch]
    split
    · exact ⟨q, rfl⟩
    · next hq =>
      rcases List.mem_cons.mp hp with rfl | hp'
      · exact absurd hpre hq
      · exact ih hp' hpre

/-- The boolean scan agrees with existence of a beginning pattern. -/
lemma anyMatch_iff {pats : List (List Char)} {s : List Char} :
    anyMatch pats s = true ↔ ∃ p ∈ pats, isPre p s = true := by
  induction pats with
  | nil => simp [anyMatch]
  | cons q rest ih =>
    simp only [anyMatch, Bool.or_eq_true, ih, List.mem_cons]
    constructor
    · rintro (h | ⟨p, hp, h⟩)
      · exact ⟨q, Or.inl rfl, h⟩
      · exact ⟨p, Or.inr hp, h⟩
    · rintro ⟨p, rfl | hp, h⟩
      · exact Or.inl h
      · exact Or.inr ⟨p, hp, h⟩

/-- On a length-descending pattern list, the first match is at least as long
as any member that begins `s`. -/
lemma firstMatch_ge_of_sorted : ∀ {pats : List (List Char)} {s q r : List Char},
    lenDescending pats → q ∈ pats → isPre q s = true →
    firstMatch pats s = some r → q.length ≤ r.length := by
  intro pats
  induction pats with
  | nil => intro s q r _ hq; simp at hq
  | cons a rest ih =>
    intro s q r hs hq hqs h
    have hs' := List.pairwise_cons.mp hs
    simp only [firstMatch] at h
    split at h
    · cases h
      rcases List.mem_cons.mp hq with rfl | hq'
      · exact Nat.le_refl _
      · exact hs'.1 q hq'
    · next ha =>
      rcases List.mem_cons.mp hq with rfl | hq'
      · exact absurd hqs ha
      · exact ih hs'.2 hq' hqs h

lemma consonant_sorted : lenDescending consonant_patterns := by decide

lemma vowel_sorted : lenDescending vowel_patterns := by decide

lemma matra_sorted : lenDescending matra_patterns := by decide

lemma consonant_pats_shape : ∀ p ∈ consonant_patterns, p ≠ [] ∧ p.head? ≠ some ' ' := by decide

lemma vowel_pats_shape : ∀ p ∈ vowel_patterns, p ≠ [] ∧ p.head? ≠ some ' ' := by decide

lemma matra_pats_shape : ∀ p ∈ matra_patterns, p ≠ [] ∧ p.head? ≠ some ' ' := by decide

lemma special_pats_shape : ∀ p ∈ special_scan_patterns, p ≠ [] ∧ p.head? ≠ some ' ' := by decide

lemma special_sub_vowel : ∀ p ∈ special_scan_patterns, p ∈ vowel_patterns := by decide

lemma pattern_len_pos {pats : List (List Char)} {s p : List Char}
    (hshape : ∀ q ∈ pats, q ≠ [] ∧ q.head? ≠ some ' ')
    (h : firstMatch pats s = some p) : 1 ≤ p.length := by
  have := (hshape p (firstMatch_some h).1).1
  cases p with
  | nil => exact absurd rfl this
  | cons a as => simp

lemma step_snd_pos (s : List Char) : 1 ≤ (step s).2 := by
  unfold step
  split
  · simp
  next c rest =>
    split
    · simp
    · split
      next p hfc =>
        have hp1 : 1 ≤ p.length := pattern_len_pos consonant_pats_shape hfc
        dsimp only
        split
        · split
          all_goals simp
          all_goals omega
        · split
          next vp hv =>
            split
            all_goals simp
            all_goals omega
          next =>
            split
            · simpa using hp1
            · split
              · split
                · split <;> simpa using hp1
                · simpa using hp1
              · simpa using hp1
      next =>
        split
        next p hv =>
          have hp1 : 1 ≤ p.length := pattern_len_pos vowel_pats_shape hv
          simpa using hp1
        next =>
          split
          next p hsp =>
            have hp1 : 1 ≤ p.length := pattern_len_pos special_pats_shape hsp
            simpa using hp1
          next => simp

lemma scanFuel_eq_of_le : ∀ (f g : Nat) (s : List Char), s.length ≤ f → s.length ≤ g →
    scanFuel f s = scanFuel g s := by
  intro f
  induction f with
  | zero =>
    intro g s hf hg
    have hs : s = [] := by cases s <;> simp_all
    subst hs
    cases g <;> simp [scanFuel]
  | succ f ih =>
    intro g s hf hg
    cases s with
    | nil => cases g <;> simp [scanFuel]
    | cons c s' =>
      cases g with
      | zero => simp at hg
      | succ g' =>
        simp only [scanFuel, if_neg (List.cons_ne_nil c s')]
        congr 1
        have hpos := step_snd_pos (c :: s')
        apply ih
        · rw [List.length_drop]
          simp only [List.length_cons] at hf ⊢
          omega
        · rw [List.length_drop]
          simp only [List.length_cons] at hg ⊢
          omega

lemma scanText_step {s : List Char} (h : s ≠ []) :
    scanText s = (step s).1 ++ scanText (s.drop (step s).2) := by
  cases s with
  | nil => exact absurd rfl h
  | cons c s' =>
    show scanFuel (s'.length + 1) (c :: s') = _
    simp only [scanFuel, if_neg (List.cons_ne_nil c s')]
    congr 1
    apply scanFuel_eq_of_le
    · rw [List.length_drop]
      have := step_snd_pos (c :: s')
      simp only [List.length_cons]
      omega
    · exact Nat.le_refl _

lemma scanItersFuel_le : ∀ (f : Nat) (s : List Char), scanItersFuel f s ≤ s.length := by
  intro f
  induction f with
  | zero => intro s; simp [scanItersFuel]
  | succ f ih =>
    intro s
    cases s with
    | nil => simp [scanItersFuel]
    | cons c s' =>
      simp only [scanItersFuel, if_neg (List.cons_ne_nil c s')]
      have h1 := ih ((c :: s').drop (step (c :: s')).2)
      have h2 := step_snd_pos (c :: s')
      rw [List.length_drop] at h1
      simp only [List.length_cons] at h1 ⊢
      omega

lemma pySortLenDesc_vowel_eq : vowel_patterns =
    [("RRi").toList, ("R^i").toList, ("RRI").toList, ("R^I").toList,
     ("LLi").toList, ("L^i").toList, ("LLI").toList, ("L^I").toList,
     ("aa").toList, ("ii").toList, ("uu").toList, ("ai").toList, ("au").toList, ("..").toList,
     ("a").toList, ("A").toList, ("i").toList, ("I").toList, ("u").toList, ("U").toList,
     ("e").toList, ("E").toList, ("o").toList, ("O").toList, ("M").toList, ("H").toList,
     (".").toList] := by decide

lemma firstMatch_none_of_head {pats : List (List Char)} {c : Char} {u : List Char}
    (h : ∀ p ∈ pats, p ≠ [] ∧ p.head? ≠ some c) :
    firstMatch pats (c :: u) = none := by
  cases hf : firstMatch pats (c :: u) with
  | none => rfl
  | some p =>
    obtain ⟨hp, hpre⟩ := firstMatch_some hf
    obtain ⟨hne, hhead⟩ := h p hp
    cases p with
    | nil => exact absurd rfl hne
    | cons a as =>
      obtain ⟨s', heq, -⟩ := isPre_cons hpre
      injection heq with h1 h2
      exact absurd (by rw [h1]; rfl) hhead

lemma step_dotdot (t : List Char) : step ('.' :: '.' :: t) = (("॥").toList, 2) := by
  have hc : firstMatch consonant_patterns ('.' :: '.' :: t) = none :=
    firstMatch_none_of_head (by decide)
  have hv : firstMatch vowel_patterns ('.' :: '.' :: t) = some (("..").toList) := by
    rw [pySortLenDesc_vowel_eq]
    simp +decide [firstMatch, isPre]
  simp +decide [step, hc, hv, lookupTab]

lemma cat_longest {pats : List (List Char)} (hs : lenDescending pats) :
    ∀ s p q : List Char, p ∈ pats → q ∈ pats → isPre p q = true → p ≠ q →
      isPre q s = true →
      firstMatch pats s ≠ some p ∧
        ∀ r, firstMatch pats s = some r → q.length ≤ r.length := by
  intro s p q _ hq hpq hne hqs
  have hlen := isPre_length_lt hpq hne
  have h2 : ∀ r, firstMatch pats s = some r → q.length ≤ r.length :=
    fun r hr => firstMatch_ge_of_sorted hs hq hqs hr
  refine ⟨fun hcon => ?_, h2⟩
  have := h2 p hcon
  omega

/-- C1: `translate` returns exactly the spec's golden outputs on the
enumerated inputs, with the bare word `bharat` rewritten to `bhaarat` by the
alias pre-pass before scanning, and empty input mapping to empty output. -/
theorem C1_golden_outputs :
    translate (("").toList) = ("").toList ∧
    translate (("namaste").toList) = ("नमस्ते").toList ∧
    translate (("namaskaar").toList) = ("नमस्कार").toList ∧
    translate (("sanskrit").toList) = ("संस्कृत").toList ∧
    translate (("shri").toList) = ("श्री").toList ∧
    translate (("hindi").toList) = ("हिंदी").toList ∧
    translate (("raam").toList) = ("राम").toList ∧
    translate (("bharat").toList) = ("भारत").toList ∧
    applySpecialCases (("bharat").toList) = ("bhaarat").toList := by
  decide

/-- C9: the scanning loop of `translate` terminates on every input: each
iteration consumes at least one character (the cursor strictly increases and
never rewinds) and the loop runs at most `length` iterations. -/
theorem C9_scan_terminates :
    (∀ s : List Char, 1 ≤ (step s).2) ∧
    (∀ s : List Char, scanIters s ≤ s.length) :=
  ⟨step_snd_pos, fun s => scanItersFuel_le s.length s⟩

/-- C5: whenever a consonant match uses exactly the pattern `n` and the
position after it is end-of-text, the step emits the anusvara glyph instead
of the dental-na glyph, so a text-final `n` never leaves the dental-na glyph
in the output. -/
theorem C5_final_n_anusvara (s : List Char)
    (h : firstMatch consonant_patterns s = some (("n").toList))
    (hend : s.drop 1 = []) :
    step s = (("ं").toList, 1) ∧ scanText s = ("ं").toList := by
  have hs : s = ("n").toList := by
    obtain ⟨-, hpre⟩ := firstMatch_some h
    obtain ⟨s', rfl, -⟩ := isPre_cons hpre
    simp at hend
    rw [hend]
    rfl
  subst hs
  decide

/-- C5 witness: the concrete input `n`. -/
theorem C5_witness :
    step (("n").toList) = (("ं").toList, 1) ∧ scanText (("n").toList) = ("ं").toList :=
  C5_final_n_anusvara (("n").toList) (by decide) (by decide)

/-- C7: `translate` is a total function, and a character at the scan cursor
that begins no consonant, independent-vowel, and no special pattern is
copied to the output verbatim, in place, with the scan resuming right after
it. -/
theorem C7_passthrough (c : Char) (s : List Char)
    (hc : firstMatch consonant_patterns (c :: s) = none)
    (hv : firstMatch vowel_patterns (c :: s) = none)
    (hsp : firstMatch special_scan_patterns (c :: s) = none) :
    step (c :: s) = ([c], 1) ∧ scanText (c :: s) = c :: scanText s := by
  have hstep : step (c :: s) = ([c], 1) := by
    by_cases h : c = ' '
    · simp [step, h]
    · simp [step, h, hc, hv, hsp]
  refine ⟨hstep, ?_⟩
  rw [scanText_step (List.cons_ne_nil c s), hstep]
  simp [scanText]

/-- C7 witness: the digit `5` is passed through verbatim. -/
theorem C7_witness : step ['5'] = (['5'], 1) ∧ scanText ['5'] = '5' :: scanText [] :=
  C7_passthrough '5' [] (by decide) (by decide) (by decide)

/-- C6 counterexample: the sequence of special patterns the scanner tries is
raw declaration order `M, H, ., ..`, which is not descending-length order,
and the strict initial segment `.` is visited before the longer `..`. -/
theorem C6_counterexample :
    ¬ lenDescending special_scan_patterns ∧
    isPre ((".").toList) (("..").toList) = true ∧
    (".").toList ≠ ("..").toList ∧
    idxOf special_scan_patterns ((".").toList) <
      idxOf special_scan_patterns (("..").toList) := by
  decide

/-- C6 amended: for the vowel, consonant and matra categories the scanner
tries the category's keys in strictly descending length order with ties in
declaration order, so a strict initial segment is always visited after the
longer pattern; the special category alone is scanned in raw declaration
order `M, H, ., ..`, in which the strict initial segment `.` is visited
before `..`. -/
theorem C6_scan_order_amended :
    (lenDescending consonant_patterns ∧
      stableTies consonant_patterns (CONSONANTS.map Prod.fst) ∧
      consonant_patterns.length = (CONSONANTS.map Prod.fst).length ∧
      (∀ p ∈ CONSONANTS.map Prod.fst, p ∈ consonant_patterns) ∧
      longerFirst consonant_patterns) ∧
    (lenDescending vowel_patterns ∧
      stableTies vowel_patterns (VOWELS.map Prod.fst) ∧
      vowel_patterns.length = (VOWELS.map Prod.fst).length ∧
      (∀ p ∈ VOWELS.map Prod.fst, p ∈ vowel_patterns) ∧
      longerFirst vowel_patterns) ∧
    (lenDescending matra_patterns ∧
      stableTies matra_patterns (MATRAS.map Prod.fst) ∧
      matra_patterns.length = (MATRAS.map Prod.fst).length ∧
      (∀ p ∈ MATRAS.map Prod.fst, p ∈ matra_patterns) ∧
      longerFirst matra_patterns) ∧
    (special_scan_patterns =
      [("M").toList, ("H").toList, (".").toList, ("..").toList] ∧
      idxOf special_scan_patterns ((".").toList) <
        idxOf special_scan_patterns (("..").toList)) := by
  decide

/-- C2: in each category, when a pattern and a strict extension of it both
begin the remaining text, the scanner never selects the shorter: for the
three length-sorted categories the first match is at least as long as any
matching pattern (so the strict initial segment is never the match and its
length is never the amount consumed), and at a position starting with the
only special-category strict-extension pair `.`/`..` the scan step emits the
double danda and consumes two characters, never the single danda. -/
theorem C2_longest_selected :
    (∀ s p q : List Char, p ∈ consonant_patterns → q ∈ consonant_patterns →
      isPre p q = true → p ≠ q → isPre q s = true →
      firstMatch consonant_patterns s ≠ some p ∧
        ∀ r, firstMatch consonant_patterns s = some r → q.length ≤ r.length) ∧
    (∀ s p q : List Char, p ∈ vowel_patterns → q ∈ vowel_patterns →
      isPre p q = true → p ≠ q → isPre q s = true →
      firstMatch vowel_patterns s ≠ some p ∧
        ∀ r, firstMatch vowel_patterns s = some r → q.length ≤ r.length) ∧
    (∀ s p q : List Char, p ∈ matra_patterns → q ∈ matra_patterns →
      isPre p q = true → p ≠ q → isPre q s = true →
      firstMatch matra_patterns s ≠ some p ∧
        ∀ r, firstMatch matra_patterns s = some r → q.length ≤ r.length) ∧
    (∀ t : List Char, step ('.' :: '.' :: t) = (("॥").toList, 2)) :=
  ⟨cat_longest consonant_sorted, cat_longest vowel_sorted,
    cat_longest matra_sorted, step_dotdot⟩

/-- C2 witness: with `s` and `sh` both beginning `shri`, the consonant
search does not select `s`, and every match is at least two long. -/
theorem C2_witness :
    firstMatch consonant_patterns (("shri").toList) ≠ some (("s").toList) ∧
      ∀ r, firstMatch consonant_patterns (("shri").toList) = some r →
        (("sh").toList).length ≤ r.length :=
  C2_longest_selected.1 (("shri").toList) (("s").toList) (("sh").toList)
    (by decide) (by decide) (by decide) (by decide) (by decide)

lemma applyAux_characterize (tab : List (List Char × List Char)) (text : List Char) :
    applySpecialCasesAux tab text =
      match tab.find? (fun pr => isInf pr.1 (pyLower text)) with
      | none => text
      | some pr =>
        joinSp ((splitWs text).map (fun w => if pyLower w = pr.1 then pr.2 else w)) := by
  induction tab with
  | nil => rfl
  | cons pr rest ih =>
    obtain ⟨a, r⟩ := pr
    simp only [applySpecialCasesAux]
    split
    · next h => rw [List.find?_cons_of_pos _ (by simpa using h)]
    · next h =>
      rw [List.find?_cons_of_neg _ (by simpa using h)]
      exact ih

/-- C3 counterexample: on the input `hindi  x` (two spaces) the rewriter
returns `hiMdii x` — the run of spaces before the non-matching word `x` is
collapsed to a single space, so spacing of non-matching words is not
preserved. -/
theorem C3_counterexample :
    applySpecialCases (("hindi  x").toList) = ("hiMdii x").toList ∧
    ("hiMdii x").toList ≠ ("hiMdii  x").toList := by
  decide

/-- C3 amended: for the first alias (in table order) whose lowercased form
occurs as a substring of the lowercased input, the rewriter splits the text
on whitespace, replaces exactly the words whose lowercased form equals that
alias with its expansion, and rejoins the words with single spaces — so
non-matching words are preserved verbatim but whitespace runs are collapsed
and leading or trailing whitespace is dropped — and checks no further
aliases; if no alias occurs as a substring, the text is returned completely
unchanged. -/
theorem C3_rewrite_amended (text : List Char) :
    (applySpecialCases text =
      match special_cases.find? (fun pr => isInf pr.1 (pyLower text)) with
      | none => text
      | some pr =>
        joinSp ((splitWs text).map (fun w => if pyLower w = pr.1 then pr.2 else w))) ∧
    ((∀ pr ∈ special_cases, isInf pr.1 (pyLower text) = false) →
      applySpecialCases text = text) := by
  refine ⟨applyAux_characterize special_cases text, fun h => ?_⟩
  have hn : special_cases.find? (fun pr => isInf pr.1 (pyLower text)) = none :=
    List.find?_eq_none.mpr (fun x hx => by simp [h x hx])
  rw [applySpecialCases, applyAux_characterize, hn]

/-- C3 witness: `raam` contains no alias and passes through unchanged. -/
theorem C3_witness : applySpecialCases (("raam").toList) = ("raam").toList :=
  (C3_rewrite_amended (("raam").toList)).2 (by decide)

lemma step_cons_eq {c : Char} {s' p : List Char} (hc : c ≠ ' ')
    (hp : firstMatch consonant_patterns (c :: s') = some p) :
    step (c :: s') =
      (match firstMatch matra_patterns ((c :: s').drop p.length) with
       | some mp =>
         if mp = ("a").toList then (lookupTab CONSONANTS p, p.length + 1)
         else (lookupTab CONSONANTS p ++ lookupTab MATRAS mp, p.length + mp.length)
       | none =>
         match firstMatch vowel_patterns ((c :: s').drop p.length) with
         | some vp =>
           if vp = ("a").toList then (lookupTab CONSONANTS p, p.length + 1)
           else (lookupTab CONSONANTS p ++ lookupTab VOWELS vp, p.length + vp.length)
         | none =>
           if p = ("n").toList ∧ (c :: s').drop p.length = [] then
             (("ं").toList, p.length)
           else
             if (c :: s').drop p.length ≠ [] ∧
                 ((c :: s').drop p.length).head? ≠ some ' ' then
               if anyMatch consonant_patterns ((c :: s').drop p.length) then
                 if anyMatch vowel_patterns ((c :: s').drop p.length) ||
                     anyMatch special_scan_patterns ((c :: s').drop p.length) then
                   (lookupTab CONSONANTS p, p.length)
                 else (lookupTab CONSONANTS p ++ ("्").toList, p.length)
               else (lookupTab CONSONANTS p, p.length)
             else (lookupTab CONSONANTS p, p.length)) := by
  simp only [step, if_neg hc, hp]

lemma step_consonant_emission {u q : List Char}
    (hq : firstMatch consonant_patterns u = some q) :
    (∃ r, (step u).1 = lookupTab CONSONANTS q ++ r) ∨
      ((step u).1 = ("ं").toList ∧ q = ("n").toList ∧ u = ("n").toList) := by
  obtain ⟨hqm, hpre⟩ := firstMatch_some hq
  obtain ⟨hqne, hqhead⟩ := consonant_pats_shape q hqm
  obtain ⟨c, s', rfl, hc⟩ : ∃ c s', u = c :: s' ∧ c ≠ ' ' := by
    cases q with
    | nil => exact absurd rfl hqne
    | cons a as =>
      obtain ⟨s', rfl, -⟩ := isPre_cons hpre
      exact ⟨a, s', rfl, by simpa using hqhead⟩
  rw [step_cons_eq hc hq]
  cases hm : firstMatch matra_patterns ((c :: s').drop q.length) with
  | some mp =>
    simp only [hm]
    by_cases hmp : mp = ("a").toList
    · rw [if_pos hmp]
      exact Or.inl ⟨[], by simp⟩
    · rw [if_neg hmp]
      exact Or.inl ⟨lookupTab MATRAS mp, rfl⟩
  | none =>
    simp only [hm]
    cases hv : firstMatch vowel_patterns ((c :: s').drop q.length) with
    | some vp =>
      simp only [hv]
      by_cases hvp : vp = ("a").toList
      · rw [if_pos hvp]
        exact Or.inl ⟨[], by simp⟩
      · rw [if_neg hvp]
        exact Or.inl ⟨lookupTab VOWELS vp, rfl⟩
    | none =>
      simp only [hv]
      by_cases hn : q = ("n").toList ∧ (c :: s').drop q.length = []
      · rw [if_pos hn]
        right
        obtain ⟨hn1, hn2⟩ := hn
        subst hn1
        have hs' : s' = [] := by simpa using hn2
        subst hs'
        have hpre' : isPre ['n'] [c] = true := hpre
        have hc' : 'n' = c := by
          by_contra hne2
          simp [isPre, hne2] at hpre'
        refine ⟨rfl, rfl, ?_⟩
        rw [← hc']
        rfl
      · rw [if_neg hn]
        left
        by_cases h1 : (c :: s').drop q.length ≠ [] ∧
            ((c :: s').drop q.length).head? ≠ some ' '
        · rw [if_pos h1]
          cases h2 : anyMatch consonant_patterns ((c :: s').drop q.length) with
          | false => exact ⟨[], by simp [h2]⟩
          | true =>
            cases h3 : anyMatch vowel_patterns ((c :: s').drop q.length) ||
                anyMatch special_scan_patterns ((c :: s').drop q.length) with
            | false => exact ⟨("्").toList, by simp [h2, h3]⟩
            | true => exact ⟨[], by simp [h2, h3]⟩
        · rw [if_neg h1]
          exact ⟨[], by simp⟩

/-- C4 counterexample: on the input `kn` the hypotheses of the claim hold
(consonant `k`, then no matra and no vowel, not end-of-text, not a space,
and the consonant pattern `n` matches), yet the output is `क` halant `ं`:
the following consonant's dental-na glyph is replaced by the anusvara, so
the output is not base glyph, halant, following consonant's glyph. -/
theorem C4_counterexample :
    translate (("kn").toList) = ("क्ं").toList ∧
    ("क्ं").toList ≠ ("क्न").toList := by
  decide

/-- C4 amended: whenever the scanner matches a consonant pattern and at the
position right after it no matra and no independent vowel matches, that
position is not end-of-text and not a space, and a consonant pattern
matches there, the step emits the first consonant's base glyph followed by
the conjunct mark (halant) and consumes exactly the matched pattern, so the
scan resumes at the following consonant, and the next step's emission
starts with the following consonant's glyph — except that a following bare
`n` at end-of-text emits the anusvara glyph in place of the dental-na
glyph; never are two consonant glyphs adjacent with an implied vowel and no
halant between them. -/
theorem C4_conjunct_amended (s p q t : List Char)
    (hp : firstMatch consonant_patterns s = some p)
    (ht : t = s.drop p.length)
    (hm : firstMatch matra_patterns t = none)
    (hv : firstMatch vowel_patterns t = none)
    (hne : t ≠ []) (hhd : t.head? ≠ some ' ')
    (hq : firstMatch consonant_patterns t = some q) :
    step s = (lookupTab CONSONANTS p ++ ("्").toList, p.length) ∧
    scanText s = (lookupTab CONSONANTS p ++ ("्").toList) ++ scanText t ∧
    ((∃ r, (step t).1 = lookupTab CONSONANTS q ++ r) ∨
      ((step t).1 = ("ं").toList ∧ q = ("n").toList ∧ t = ("n").toList)) := by
  subst ht
  obtain ⟨hpm, hpre⟩ := firstMatch_some hp
  obtain ⟨hpne, hphead⟩ := consonant_pats_shape p hpm
  obtain ⟨c, s', rfl, hc⟩ : ∃ c s', s = c :: s' ∧ c ≠ ' ' := by
    cases p with
    | nil => exact absurd rfl hpne
    | cons a as =>
      obtain ⟨s', rfl, -⟩ := isPre_cons hpre
      exact ⟨a, s', rfl, by simpa using hphead⟩
  have hcons : anyMatch consonant_patterns ((c :: s').drop p.length) = true :=
    anyMatch_iff.mpr ⟨q, (firstMatch_some hq).1, (firstMatch_some hq).2⟩
  have hvow : anyMatch vowel_patterns ((c :: s').drop p.length) = false := by
    cases hav : anyMatch vowel_patterns ((c :: s').drop p.length) with
    | false => rfl
    | true =>
      obtain ⟨w, hw, hwp⟩ := anyMatch_iff.mp hav
      have hcontra := firstMatch_none hv w hw
      rw [hwp] at hcontra
      exact absurd hcontra (by simp)
  have hspa : anyMatch special_scan_patterns ((c :: s').drop p.length) = false := by
    cases hav : anyMatch special_scan_patterns ((c :: s').drop p.length) with
    | false => rfl
    | true =>
      obtain ⟨w, hw, hwp⟩ := anyMatch_iff.mp hav
      have hcontra := firstMatch_none hv w (special_sub_vowel w hw)
      rw [hwp] at hcontra
      exact absurd hcontra (by simp)
  have hnfin : ¬(p = ("n").toList ∧ (c :: s').drop p.length = []) := by
    rintro ⟨-, h2⟩
    exact hne h2
  have hstep : step (c :: s') =
      (lookupTab CONSONANTS p ++ ("्").toList, p.length) := by
    rw [step_cons_eq hc hp]
    simp only [hm, hv]
    rw [if_neg hnfin, if_pos (⟨hne, hhd⟩ :
      (c :: s').drop p.length ≠ [] ∧ ((c :: s').drop p.length).head? ≠ some ' ')]
    simp [hcons, hvow, hspa]
  refine ⟨hstep, ?_, step_consonant_emission hq⟩
  rw [scanText_step (List.cons_ne_nil c s'), hstep]

/-- C4 witness: the concrete input `kn`. -/
theorem C4_witness :
    step (("kn").toList) =
      (lookupTab CONSONANTS (("k").toList) ++ ("्").toList, (("k").toList).length) ∧
    scanText (("kn").toList) =
      (lookupTab CONSONANTS (("k").toList) ++ ("्").toList) ++ scanText (("n").toList) ∧
    ((∃ r, (step (("n").toList)).1 = lookupTab CONSONANTS (("n").toList) ++ r) ∨
      ((step (("n").toList)).1 = ("ं").toList ∧ ("n").toList = ("n").toList ∧
        ("n").toList = ("n").toList)) :=
  C4_conjunct_amended (("kn").toList) (("k").toList) (("n").toList) (("n").toList)
    (by decide) (by decide) (by decide) (by decide) (by decide) (by decide) (by decide)

lemma consonant_glyph_shape : ∀ p ∈ consonant_patterns,
    lookupTab CONSONANTS p ≠ [] ∧ (lookupTab CONSONANTS p).head? ≠ some ' ' ∧
    noHalantSpace (lookupTab CONSONANTS p) = true ∧
    lastOpt (lookupTab CONSONANTS p) ≠ some '्' ∧
    (∀ ch ∈ lookupTab CONSONANTS p, devChar ch) := by decide

lemma vowel_glyph_shape : ∀ p ∈ vowel_patterns, lookupTab VOWELS p ≠ [] ∧
    ∀ ch ∈ lookupTab VOWELS p, devChar ch ∧ ch ≠ '्' ∧ ch ≠ ' ' := by decide

lemma matra_glyph_shape : ∀ p ∈ matra_patterns, lookupTab MATRAS p ≠ [] ∧
    ∀ ch ∈ lookupTab MATRAS p, devChar ch ∧ ch ≠ '्' ∧ ch ≠ ' ' := by decide

lemma special_glyph_shape : ∀ p ∈ special_scan_patterns, lookupTab SPECIAL p ≠ [] ∧
    ∀ ch ∈ lookupTab SPECIAL p, devChar ch ∧ ch ≠ '्' ∧ ch ≠ ' ' := by decide

lemma step_chars {s : List Char} (hs : s ≠ []) :
    ∀ ch ∈ (step s).1, devChar ch ∨ ch = ' ' ∨ ch ∈ s := by
  intro ch hch
  obtain ⟨c, s', rfl⟩ : ∃ c s', s = c :: s' := by
    cases s with
    | nil => exact absurd rfl hs
    | cons c s' => exact ⟨c, s', rfl⟩
  by_cases hc : c = ' '
  · subst hc
    simp [step] at hch
    subst hch
    exact Or.inr (Or.inl rfl)
  · cases hfc : firstMatch consonant_patterns (c :: s') with
    | some p =>
      have hpm := (firstMatch_some hfc).1
      have hgdev := (consonant_glyph_shape p hpm).2.2.2.2
      rw [step_cons_eq hc hfc] at hch
      cases hm : firstMatch matra_patterns ((c :: s').drop p.length) with
      | some mp =>
        simp only [hm] at hch
        by_cases hmp : mp = ("a").toList
        · rw [if_pos hmp] at hch
          exact Or.inl (hgdev ch hch)
        · rw [if_neg hmp] at hch
          rcases List.mem_append.mp hch with h | h
          · exact Or.inl (hgdev ch h)
          · exact Or.inl ((matra_glyph_shape mp (firstMatch_some hm).1).2 ch h).1
      | none =>
        simp only [hm] at hch
        cases hv : firstMatch vowel_patterns ((c :: s').drop p.length) with
        | some vp =>
          simp only [hv] at hch
          by_cases hvp : vp = ("a").toList
          · rw [if_pos hvp] at hch
            exact Or.inl (hgdev ch hch)
          · rw [if_neg hvp] at hch
            rcases List.mem_append.mp hch with h | h
            · exact Or.inl (hgdev ch h)
            · exact Or.inl ((vowel_glyph_shape vp (firstMatch_some hv).1).2 ch h).1
        | none =>
          simp only [hv] at hch
          by_cases hn : p = ("n").toList ∧ (c :: s').drop p.length = []
          · rw [if_pos hn] at hch
            have : ch = 'ं' := by simpa using hch
            subst this
            exact Or.inl (by decide)
          · rw [if_neg hn] at hch
            have hgd : ch ∈ lookupTab CONSONANTS p ∨ ch = '्' → devChar ch := by
              rintro (h | rfl)
              · exact hgdev ch h
              · decide
            by_cases h1 : (c :: s').drop p.length ≠ [] ∧
                ((c :: s').drop p.length).head? ≠ some ' '
            · rw [if_pos h1] at hch
              cases h2 : anyMatch consonant_patterns ((c :: s').drop p.length) with
              | false =>
                simp only [h2, Bool.false_eq_true, if_false] at hch
                exact Or.inl (hgdev ch hch)
              | true =>
                simp only [h2, if_true] at hch
                cases h3 : anyMatch vowel_patterns ((c :: s').drop p.length) ||
                    anyMatch special_scan_patterns ((c :: s').drop p.length) with
                | false =>
                  simp only [h3, Bool.false_eq_true, if_false] at hch
                  rcases List.mem_append.mp hch with h | h
                  · exact Or.inl (hgdev ch h)
                  · have : ch = '्' := by simpa using h
                    subst this
                    exact Or.inl (by decide)
                | true =>
                  simp only [h3, if_true] at hch
                  exact Or.inl (hgdev ch hch)
            · rw [if_neg h1] at hch
              exact Or.inl (hgdev ch hch)
    | none =>
      cases hfv : firstMatch vowel_patterns (c :: s') with
      | some p =>
        simp only [step, if_neg hc, hfc, hfv] at hch
        exact Or.inl ((vowel_glyph_shape p (firstMatch_some hfv).1).2 ch hch).1
      | none =>
        cases hfs : firstMatch special_scan_patterns (c :: s') with
        | some p =>
          simp only [step, if_neg hc, hfc, hfv, hfs] at hch
          exact Or.inl ((special_glyph_shape p (firstMatch_some hfs).1).2 ch hch).1
        | none =>
          simp only [step, if_neg hc, hfc, hfv, hfs] at hch
          have : ch = c := by simpa using hch
          subst this
          exact Or.inr (Or.inr (List.mem_cons_self ..))

lemma scan_chars : ∀ (n : Nat) (s : List Char), s.length ≤ n →
    ∀ ch ∈ scanText s, devChar ch ∨ ch = ' ' ∨ ch ∈ s := by
  intro n
  induction n with
  | zero =>
    intro s hl ch hch
    have hs : s = [] := by cases s <;> simp_all
    subst hs
    simp [scanText, scanFuel] at hch
  | succ n ih =>
    intro s hl ch hch
    cases s with
    | nil => simp [scanText, scanFuel] at hch
    | cons c s' =>
      rw [scanText_step (List.cons_ne_nil c s')] at hch
      rcases List.mem_append.mp hch with h | h
      · exact step_chars (List.cons_ne_nil c s') ch h
      · have hlen : ((c :: s').drop (step (c :: s')).2).length ≤ n := by
          rw [List.length_drop]
          have := step_snd_pos (c :: s')
          simp only [List.length_cons] at hl ⊢
          omega
        rcases ih _ hlen ch h with h' | h' | h'
        · exact Or.inl h'
        · exact Or.inr (Or.inl h')
        · exact Or.inr (Or.inr (List.drop_subset _ _ h'))

/-- C8: every character of the output of `translate` is a Devanagari-block
code point (U+0900 to U+097F), an ASCII space, or a character copied
verbatim by the passthrough fallback from the alias-rewritten input. -/
theorem C8_output_charset (text : List Char) (ch : Char)
    (h : ch ∈ translate text) :
    devChar ch ∨ ch = ' ' ∨ ch ∈ applySpecialCases text := by
  unfold translate at h
  split at h
  · simp at h
  · exact scan_chars (applySpecialCases text).length _ (Nat.le_refl _) ch h

/-- C8 witness: the glyph emitted for `ka` lies in the Devanagari block. -/
theorem C8_witness :
    devChar 'क' ∨ 'क' = ' ' ∨ 'क' ∈ applySpecialCases (("ka").toList) :=
  C8_output_charset (("ka").toList) 'क' (by decide)

lemma head?_append_of_ne {a b : List Char} (ha : a ≠ []) :
    (a ++ b).head? = a.head? := by
  cases a with
  | nil => exact absurd rfl ha
  | cons x xs => rfl

lemma lastOpt_append {a b : List Char} (hb : b ≠ []) :
    lastOpt (a ++ b) = lastOpt b := by
  unfold lastOpt
  rw [List.reverse_append]
  exact head?_append_of_ne (by simpa using hb)

lemma lastOpt_mem : ∀ {l : List Char} {ch : Char}, lastOpt l = some ch → ch ∈ l := by
  intro l ch h
  unfold lastOpt at h
  cases hr : l.reverse with
  | nil => rw [hr] at h; simp at h
  | cons x xs =>
    rw [hr] at h
    have hxc : x = ch := by simpa using h
    subst hxc
    have hmem : x ∈ l.reverse := by rw [hr]; exact List.mem_cons_self ..
    exact List.mem_reverse.mp hmem

lemma noHalantSpace_cons_cons {x y : Char} {l : List Char} :
    noHalantSpace (x :: y :: l) = true ↔
      ¬(x = '्' ∧ y = ' ') ∧ noHalantSpace (y :: l) = true := by
  simp only [noHalantSpace]
  split
  · next h => simp [h]
  · next h => simp [h]

lemma noHalantSpace_of_no_halant : ∀ {l : List Char},
    (∀ ch ∈ l, ch ≠ '्') → noHalantSpace l = true := by
  intro l
  induction l with
  | nil => intro _; rfl
  | cons x xs ih =>
    intro h
    cases xs with
    | nil => rfl
    | cons y ys =>
      refine noHalantSpace_cons_cons.mpr ⟨?_, ih (fun ch hch => h ch (List.mem_cons_of_mem _ hch))⟩
      rintro ⟨rfl, -⟩
      exact h '्' (List.mem_cons_self ..) rfl

lemma noHalantSpace_append : ∀ {a b : List Char}, noHalantSpace a = true →
    noHalantSpace b = true → (lastOpt a = some '्' → b.head? ≠ some ' ') →
    noHalantSpace (a ++ b) = true := by
  intro a
  induction a with
  | nil =>
    intro b _ hb _
    simpa using hb
  | cons x xs ih =>
    intro b ha hb hab
    cases xs with
    | nil =>
      cases b with
      | nil => rfl
      | cons y bs =>
        rw [List.singleton_append]
        refine noHalantSpace_cons_cons.mpr ⟨?_, hb⟩
        rintro ⟨rfl, rfl⟩
        exact hab rfl rfl
    | cons x2 xs2 =>
      have h' := noHalantSpace_cons_cons.mp ha
      have hlast : lastOpt (x :: x2 :: xs2) = lastOpt (x2 :: xs2) := by
        have hx : x :: x2 :: xs2 = [x] ++ (x2 :: xs2) := rfl
        rw [hx, lastOpt_append (List.cons_ne_nil x2 xs2)]
      rw [List.cons_append]
      exact noHalantSpace_cons_cons.mpr
        ⟨h'.1, ih h'.2 hb (fun hl => hab (by rw [hlast]; exact hl))⟩

lemma scanText_head_of_consonant {t q : List Char}
    (hq : firstMatch consonant_patterns t = some q) :
    scanText t ≠ [] ∧ (scanText t).head? ≠ some ' ' := by
  have hqs := firstMatch_some hq
  have ht : t ≠ [] := by
    obtain ⟨hqne, -⟩ := consonant_pats_shape q hqs.1
    cases q with
    | nil => exact absurd rfl hqne
    | cons a as =>
      obtain ⟨s', rfl, -⟩ := isPre_cons hqs.2
      exact List.cons_ne_nil a s'
  rw [scanText_step ht]
  obtain ⟨hgne, hghead, -, -, -⟩ := consonant_glyph_shape q hqs.1
  rcases step_consonant_emission hq with ⟨r, he⟩ | ⟨he, -, -⟩
  · constructor
    · rw [he]
      intro hcon
      rw [List.append_assoc] at hcon
      exact hgne (List.append_eq_nil.mp hcon).1
    · rw [he, List.append_assoc, head?_append_of_ne hgne]
      exact hghead
  · constructor
    · rw [he]
      intro hcon
      exact absurd (List.append_eq_nil.mp hcon).1 (by decide)
    · rw [he, head?_append_of_ne (by decide)]
      decide
lemma step_halant_shape {s : List Char} (hs : s ≠ []) (hhal : '्' ∉ s) :
    noHalantSpace (step s).1 = true ∧
    (lastOpt (step s).1 ≠ some '्' ∨
      (scanText (s.drop (step s).2) ≠ [] ∧
        (scanText (s.drop (step s).2)).head? ≠ some ' ')) := by
  obtain ⟨c, s', rfl⟩ : ∃ c s', s = c :: s' := by
    cases s with
    | nil => exact absurd rfl hs
    | cons c s' => exact ⟨c, s', rfl⟩
  by_cases hc : c = ' '
  · subst hc
    exact ⟨rfl, Or.inl (show lastOpt [' '] ≠ some '्' from by decide)⟩
  · cases hfc : firstMatch consonant_patterns (c :: s') with
    | some p =>
      have hpm := (firstMatch_some hfc).1
      obtain ⟨hgne, hghead, hgnhs, hglast, hgdev⟩ := consonant_glyph_shape p hpm
      rw [step_cons_eq hc hfc]
      cases hm : firstMatch matra_patterns ((c :: s').drop p.length) with
      | some mp =>
        simp only [hm]
        obtain ⟨hmne, hmch⟩ := matra_glyph_shape mp (firstMatch_some hm).1
        by_cases hmp : mp = ("a").toList
        · rw [if_pos hmp]
          exact ⟨hgnhs, Or.inl hglast⟩
        · rw [if_neg hmp]
          constructor
          · refine noHalantSpace_append hgnhs
              (noHalantSpace_of_no_halant (fun ch hch => (hmch ch hch).2.1)) ?_
            intro hle
            exact absurd hle hglast
          · left
            rw [lastOpt_append hmne]
            intro hcon
            exact (hmch '्' (lastOpt_mem hcon)).2.1 rfl
      | none =>
        simp only [hm]
        cases hv : firstMatch vowel_patterns ((c :: s').drop p.length) with
        | some vp =>
          simp only [hv]
          obtain ⟨hvne, hvch⟩ := vowel_glyph_shape vp (firstMatch_some hv).1
          by_cases hvp : vp = ("a").toList
          · rw [if_pos hvp]
            exact ⟨hgnhs, Or.inl hglast⟩
          · rw [if_neg hvp]
            constructor
            · refine noHalantSpace_append hgnhs
                (noHalantSpace_of_no_halant (fun ch hch => (hvch ch hch).2.1)) ?_
              intro hle
              exact absurd hle hglast
            · left
              rw [lastOpt_append hvne]
              intro hcon
              exact (hvch '्' (lastOpt_mem hcon)).2.1 rfl
        | none =>
          simp only [hv]
          by_cases hn : p = ("n").toList ∧ (c :: s').drop p.length = []
          · rw [if_pos hn]
            exact ⟨rfl, Or.inl (show lastOpt (("ं").toList) ≠ some '्' from by decide)⟩
          · rw [if_neg hn]
            by_cases h1 : (c :: s').drop p.length ≠ [] ∧
                ((c :: s').drop p.length).head? ≠ some ' '
            · rw [if_pos h1]
              cases h2 : anyMatch consonant_patterns ((c :: s').drop p.length) with
              | false =>
                simp only [h2, Bool.false_eq_true, if_false]
                exact ⟨hgnhs, Or.inl hglast⟩
              | true =>
                simp only [h2, if_true]
                cases h3 : anyMatch vowel_patterns ((c :: s').drop p.length) ||
                    anyMatch special_scan_patterns ((c :: s').drop p.length) with
                | true =>
                  simp only [h3, if_true]
                  exact ⟨hgnhs, Or.inl hglast⟩
                | false =>
                  simp only [h3, Bool.false_eq_true, if_false]
                  constructor
                  · exact noHalantSpace_append hgnhs rfl (fun _ => by decide)
                  · right
                    obtain ⟨w, hw, hwp⟩ := anyMatch_iff.mp h2
                    obtain ⟨q, hq⟩ := firstMatch_isSome hw hwp
                    exact scanText_head_of_consonant hq
            · rw [if_neg h1]
              exact ⟨hgnhs, Or.inl hglast⟩
    | none =>
      cases hfv : firstMatch vowel_patterns (c :: s') with
      | some p =>
        simp only [step, if_neg hc, hfc, hfv]
        obtain ⟨hvne, hvch⟩ := vowel_glyph_shape p (firstMatch_some hfv).1
        constructor
        · exact noHalantSpace_of_no_halant (fun ch hch => (hvch ch hch).2.1)
        · left
          intro hcon
          exact (hvch '्' (lastOpt_mem hcon)).2.1 rfl
      | none =>
        cases hfs : firstMatch special_scan_patterns (c :: s') with
        | some p =>
          simp only [step, if_neg hc, hfc, hfv, hfs]
          obtain ⟨hsne, hsch⟩ := special_glyph_shape p (firstMatch_some hfs).1
          constructor
          · exact noHalantSpace_of_no_halant (fun ch hch => (hsch ch hch).2.1)
          · left
            intro hcon
            exact (hsch '्' (lastOpt_mem hcon)).2.1 rfl
        | none =>
          simp only [step, if_neg hc, hfc, hfv, hfs]
          have hcn : c ≠ '्' := fun hcc => hhal (hcc ▸ List.mem_cons_self ..)
          constructor
          · rfl
          · left
            intro hcon
            have : c = '्' := by simpa [lastOpt] using hcon
            exact hcn this

lemma scan_halant_safe : ∀ (n : Nat) (s : List Char), s.length ≤ n → '्' ∉ s →
    noHalantSpace (scanText s) = true ∧ lastOpt (scanText s) ≠ some '्' := by
  intro n
  induction n with
  | zero =>
    intro s hl _
    have hsnil : s = [] := by cases s <;> simp_all
    subst hsnil
    exact ⟨rfl, by decide⟩
  | succ n ih =>
    intro s hl hhal
    cases s with
    | nil => exact ⟨rfl, by decide⟩
    | cons c s' =>
      rw [scanText_step (List.cons_ne_nil c s')]
      obtain ⟨he1, he2⟩ := step_halant_shape (List.cons_ne_nil c s') hhal
      have hdl : (((c :: s')).drop (step (c :: s')).2).length ≤ n := by
        rw [List.length_drop]
        have := step_snd_pos (c :: s')
        simp only [List.length_cons] at hl ⊢
        omega
      have hdh : '्' ∉ (c :: s').drop (step (c :: s')).2 :=
        fun hm => hhal (List.drop_subset _ _ hm)
      obtain ⟨ih1, ih2⟩ := ih _ hdl hdh
      constructor
      · refine noHalantSpace_append he1 ih1 ?_
        intro hle
        rcases he2 with h | ⟨-, hhd⟩
        · exact absurd hle h
        · exact hhd
      · by_cases hrest : scanText ((c :: s').drop (step (c :: s')).2) = []
        · rw [hrest, List.append_nil]
          rcases he2 with h | ⟨hne2, -⟩
          · exact h
          · exact absurd hrest hne2
        · rw [lastOpt_append hrest]
          exact ih2

lemma mem_joinSp : ∀ {ws : List (List Char)} {ch : Char}, ch ∈ joinSp ws →
    ch = ' ' ∨ ∃ w ∈ ws, ch ∈ w := by
  intro ws
  induction ws with
  | nil =>
    intro ch h
    simp [joinSp] at h
  | cons w ws ih =>
    intro ch h
    cases ws with
    | nil => exact Or.inr ⟨w, by simp, by simpa [joinSp] using h⟩
    | cons w2 rest =>
      simp only [joinSp] at h
      rcases List.mem_append.mp h with h' | h'
      · exact Or.inr ⟨w, by simp, h'⟩
      · rcases List.mem_cons.mp h' with rfl | h''
        · exact Or.inl rfl
        · rcases ih h'' with h3 | ⟨w', hw', h4⟩
          · exact Or.inl h3
          · exact Or.inr ⟨w', by simp [hw'], h4⟩

lemma mem_splitWsAux : ∀ {s acc w : List Char}, w ∈ splitWsAux s acc →
    ∀ {ch : Char}, ch ∈ w → ch ∈ s ∨ ch ∈ acc := by
  intro s
  induction s with
  | nil =>
    intro acc w hw ch hch
    simp only [splitWsAux] at hw
    split at hw
    · simp at hw
    · have : w = acc.reverse := by simpa using hw
      subst this
      exact Or.inr (List.mem_reverse.mp hch)
  | cons c rest ih =>
    intro acc w hw ch hch
    simp only [splitWsAux] at hw
    split at hw
    · split at hw
      · rcases ih hw hch with h | h
        · exact Or.inl (List.mem_cons_of_mem _ h)
        · simp at h
      · rcases List.mem_cons.mp hw with rfl | hw'
        · exact Or.inr (List.mem_reverse.mp hch)
        · rcases ih hw' hch with h | h
          · exact Or.inl (List.mem_cons_of_mem _ h)
          · simp at h
    · rcases ih hw hch with h | h
      · exact Or.inl (List.mem_cons_of_mem _ h)
      · rcases List.mem_cons.mp h with rfl | h'
        · exact Or.inl (List.mem_cons_self ..)
        · exact Or.inr h'

lemma mem_applyAux : ∀ {tab : List (List Char × List Char)} {text : List Char} {ch : Char},
    ch ∈ applySpecialCasesAux tab text →
    ch ∈ text ∨ ch = ' ' ∨ ∃ pr ∈ tab, ch ∈ pr.2 := by
  intro tab
  induction tab with
  | nil =>
    intro text ch h
    exact Or.inl h
  | cons pr rest ih =>
    intro text ch h
    obtain ⟨a, r⟩ := pr
    simp only [applySpecialCasesAux] at h
    split at h
    · rcases mem_joinSp h with h' | ⟨w, hw, hcw⟩
      · exact Or.inr (Or.inl h')
      · obtain ⟨w0, hw0, rfl⟩ := List.mem_map.mp hw
        by_cases hrep : pyLower w0 = a
        · rw [if_pos hrep] at hcw
          exact Or.inr (Or.inr ⟨(a, r), by simp, hcw⟩)
        · rw [if_neg hrep] at hcw
          rcases mem_splitWsAux (show w0 ∈ splitWsAux text [] from hw0) hcw with h1 | h1
          · exact Or.inl h1
          · simp at h1
    · rcases ih h with h1 | h1 | ⟨pr', hpr', h2⟩
      · exact Or.inl h1
      · exact Or.inr (Or.inl h1)
      · exact Or.inr (Or.inr ⟨pr', List.mem_cons_of_mem _ hpr', h2⟩)

lemma rewrite_no_halant {text : List Char} (h : '्' ∉ text) :
    '्' ∉ applySpecialCases text := by
  intro hc
  rcases mem_applyAux hc with h1 | h1 | ⟨pr, hpr, h2⟩
  · exact h h1
  · exact absurd h1 (by decide)
  · have hno : ∀ pr ∈ special_cases, '्' ∉ pr.2 := by decide
    exact hno pr hpr h2

/-- C10: for every input that contains no halant character U+094D, the
output of `translate` never ends with a halant and a halant is never
immediately followed by a space: every emitted halant (the conjunct mark or
one inside a multi-code-point glyph) is followed by a further non-space
glyph. -/
theorem C10_halant_followed (text : List Char) (h : '्' ∉ text) :
    noHalantSpace (translate text) = true ∧
      lastOpt (translate text) ≠ some '्' := by
  unfold translate
  split
  · exact ⟨rfl, by decide⟩
  · exact scan_halant_safe (applySpecialCases text).length _ (Nat.le_refl _)
      (rewrite_no_halant h)

/-- C10 witness: the input `namaskaar`. -/
theorem C10_witness :
    noHalantSpace (translate (("namaskaar").toList)) = true ∧
      lastOpt (translate (("namaskaar").toList)) ≠ some '्' :=
  C10_halant_followed (("namaskaar").toList) (by decide)

end Itrans
